import Mathlib

/-!
Verification of the RoseLoRA edit-training loop
(`easyeditor/models/roselora/roselora_main.py`).

The Python source is shallowly embedded below.  Real (float) arithmetic is
modelled exactly over `ℚ`; tensors are modelled as lists of rationals (a
matrix is given as the list of its slices along the pruning dimension);
fallible library calls (`torch.kthvalue`, division) are modelled in
`Except`.  Definitions are translated from the source; each definition's
doc comment points to the source lines it embeds.
-/

namespace RoseLoRA

/-- Source line 49: `sparsity = 0.05`. -/
def sparsity : ℚ := 5 / 100

/-- Source line 50: `full_iter = 3`. -/
def full_iter : ℕ := 3

/-- Source line 51: `burnin_iter = 20`. -/
def burnin_iter : ℕ := 20

/-- Source lines 118-125: the three-phase sparsity-rate schedule computed
from the 0-based iteration index `it`. -/
def rateOf (it : ℕ) : ℚ :=
  if it < full_iter then 1
  else if it < burnin_iter then
    sparsity + (1 - sparsity) *
      (1 - ((it : ℚ) - (full_iter : ℚ)) / ((burnin_iter : ℚ) - (full_iter : ℚ))) ^ 3
  else sparsity

/-- Source lines 216-225 (`chunks`), accumulator-passing form of the
generator: `chunk` is the partial chunk built so far. -/
def chunksGo (n : ℕ) : List α → List α → List (List α)
  | [], chunk => if chunk.length > 0 then [chunk] else []
  | a :: arr, chunk =>
    let chunk' := chunk ++ [a]
    if chunk'.length = n then chunk' :: chunksGo n arr [] else chunksGo n arr chunk'

/-- Source lines 216-225: `chunks(arr, n)` yields successive `n`-sized
chunks from `arr`. -/
def chunks (arr : List α) (n : ℕ) : List (List α) :=
  chunksGo n arr []

/-- Source lines 173 and 178: `int(imp[n].shape[d] * (1 - rate))`; the
operand is nonnegative for every schedule rate, so Python truncation is
the floor. -/
def pruneK (shape : ℕ) (rate : ℚ) : ℕ :=
  (⌊(shape : ℚ) * (1 - rate)⌋).toNat

/-- Source lines 175 and 180: `p.data.clamp_(-3e-3, 3e-3)` on one entry. -/
def clamp3 (v : ℚ) : ℚ :=
  min (max v (-(3 / 1000))) (3 / 1000)

/-- Sorted view of one slice of an importance tensor, used to model
`torch.kthvalue` (the kth smallest along the pruning dimension). -/
def sortedScores (l : List ℚ) : List ℚ :=
  l.insertionSort (· ≤ ·)

/-- Model of `torch.kthvalue(input, k)` on one slice: the kth smallest
value (1-indexed); the library raises a runtime error unless
`1 ≤ k ≤ length`. -/
def kthvalueE (l : List ℚ) (k : ℕ) : Except String ℚ :=
  if 1 ≤ k ∧ k ≤ l.length then .ok ((sortedScores l).getD (k - 1) 0)
  else .error "kthvalue: selected number k out of range"

/-- The value `kthvalueE` returns when `k` is in range: the kth smallest
score of the slice. -/
def kthThreshold (sc : List ℚ) (k : ℕ) : ℚ :=
  (sortedScores sc).getD (k - 1) 0

/-- Source lines 174-175 (and 179-180) on one slice, given the threshold
`t`: `masked_fill_(imp < t, 0.0)` followed by `clamp_(-3e-3, 3e-3)`. -/
def prunedSlice (t : ℚ) (sc vl : List ℚ) : List ℚ :=
  (List.zipWith (fun s v => if s < t then (0 : ℚ) else v) sc vl).map clamp3

/-- Source lines 173-175 (and 178-180) restricted to one slice along the
pruning dimension: threshold by the kth smallest importance score, zero
the entries strictly below it, then clamp everything to `[-3e-3, 3e-3]`. -/
def pruneSliceE (k : ℕ) (sc vl : List ℚ) : Except String (List ℚ) :=
  match kthvalueE sc k with
  | .error e => .error e
  | .ok t => .ok (prunedSlice t sc vl)

/-- Source lines 170-180 for one parameter: the tensors are given as the
lists of their slices along the pruning dimension (dim 0 for role B,
dim 1 for role A); `shape` is the extent along that dimension. -/
def pruneParamE (shape : ℕ) (rate : ℚ) (imp vals : List (List ℚ)) :
    Except String (List (List ℚ)) :=
  (List.zip imp vals).mapM fun sv => pruneSliceE (pruneK shape rate) sv.1 sv.2

/-- Model of `Tensor.detach`: identity on values (it only severs the
autograd graph). -/
def detach (v : List ℚ) : List ℚ := v

/-- Source lines 159 and 164: elementwise `torch.abs(p.grad * p)`. -/
def impScore (g v : List ℚ) : List ℚ :=
  List.zipWith (fun a b => |a * b|) g v

/-- Source lines 161 and 166: `imp[n] * 0.8 + torch.abs(p.grad * p).detach() * 0.2`. -/
def emaStep (old s : List ℚ) : List ℚ :=
  List.zipWith (fun a b => a * (8 / 10) + b * (2 / 10)) old (detach s)

/-- Importance maps `imp_A` / `imp_B` (source lines 106-107), keyed by
parameter name. -/
def ImpMap : Type := String → Option (List ℚ)

/-- Source lines 158-161 (resp. 163-166): initialize the score on the
first observation of a parameter name, otherwise take the exponential
moving average with decay 0.8. -/
def impUpdate (m : ImpMap) (n : String) (s : List ℚ) : ImpMap :=
  fun n' =>
    if n' = n then
      some (match m n with
            | none => s
            | some old => emaStep old s)
    else m n'

/-- One named adapter parameter as seen after a backward pass. -/
structure NamedParam where
  name : String
  grad : List ℚ
  val : List ℚ

/-- Python's `pat in s` substring test. -/
def strHasSub (s pat : String) : Bool :=
  (List.range (s.length + 1)).any fun i =>
    decide ((s.data.drop i).take pat.length = pat.data)

/-- Source lines 156-166: one pass over `named_parameters()` after a
backward pass, updating both importance maps. -/
def updateImps (ps : List NamedParam) (impA impB : ImpMap) : ImpMap × ImpMap :=
  ps.foldl
    (fun ms p =>
      let mA := if strHasSub p.name "lora_A" then impUpdate ms.1 p.name (impScore p.grad p.val) else ms.1
      let mB := if strHasSub p.name "lora_B" then impUpdate ms.2 p.name (impScore p.grad p.val) else ms.2
      (mA, mB))
    (impA, impB)

/-- The model fields `execute_roselora` touches before training, plus an
abstract weight state standing for everything else. -/
structure ModelState where
  use_cache : Bool
  supports_gradient_checkpointing : Bool
  gradient_checkpointing : Bool
  input_require_grads : Bool
  weights : ℕ
deriving DecidableEq

/-- Stages of `execute_roselora` that follow the `lora_type` check. -/
inductive ExecEvent where
  | peftWrap
  | preprocessRequests
  | optimizerInit
  | tokenize
  | trainStep
deriving DecidableEq

/-- Source lines 53-56: the flag mutations performed before the
`lora_type` check. -/
def setupFlags (m : ModelState) : ModelState :=
  { m with
    use_cache := false
    supports_gradient_checkpointing := true
    gradient_checkpointing := true
    input_require_grads := true }

/-- Source lines 53-60, with the remainder of `execute_roselora`
abstracted to its event trace: the `lora_type` check (lines 57-60) runs
after the flag mutations of lines 53-56 and before adapter wrapping
(line 74), request preprocessing (79-83), optimizer construction (99),
tokenization (127) and training.  The Bool is `false` when
`NotImplementedError` is raised. -/
def executeTrace (m : ModelState) (loraType : String) : ModelState × List ExecEvent × Bool :=
  let m1 := setupFlags m
  if loraType = "lora" then
    (m1, [.peftWrap, .preprocessRequests, .optimizerInit, .tokenize, .trainStep], true)
  else (m1, [], false)

/-- One edit-request dictionary. -/
structure Request where
  prompt : String
  target_new : String
deriving DecidableEq, Inhabited

/-- Source lines 81-83: prepend a space unless the target is exactly a
single space. -/
def processTarget (t : String) : String :=
  if t = " " then t else " " ++ t

/-- Source lines 80-83 applied to one request dictionary. -/
def procRequest (r : Request) : Request :=
  { r with target_new := processTarget r.target_new }

/-- Claim C5's own wording, for comparison with `processTarget` only:
prepend a space iff the target is non-empty and not whitespace-only. -/
def claimedProcessTarget (t : String) : String :=
  if t ≠ "" ∧ ¬ t.data.all Char.isWhitespace then " " ++ t else t

/-- Heap of request dictionaries; an address is an index into the heap.
Source line 79 (`deepcopy`) allocates fresh copies at fresh addresses. -/
def deepcopyAlloc (h : List Request) (addrs : List ℕ) : List Request × List ℕ :=
  (h ++ addrs.map (fun a => h.getD a default), List.range' h.length addrs.length)

/-- Source lines 80-83: in-place mutation of each addressed request. -/
def preprocessHeap (h : List Request) (addrs : List ℕ) : List Request :=
  addrs.foldl (fun hh a => hh.set a (procRequest (hh.getD a default))) h

/-- Source lines 79-83 in the heap model: deep-copy the caller's
requests and mutate only the copies; returns the final heap and the
addresses the run works on. -/
def execRequests (h : List Request) (callerAddrs : List ℕ) : List Request × List ℕ :=
  let copied := deepcopyAlloc h callerAddrs
  (preprocessHeap copied.1 copied.2, copied.2)

/-- Source lines 197-213: the loss tracker. -/
structure AverageMeter where
  val : ℚ
  avg : ℚ
  sum : ℚ
  count : ℚ

/-- Source lines 203-207. -/
def AverageMeter.reset : AverageMeter := ⟨0, 0, 0, 0⟩

/-- Source lines 209-213; `n` is the batch size passed at line 152. -/
def AverageMeter.update (m : AverageMeter) (v : ℚ) (n : ℕ) : AverageMeter :=
  ⟨v, (m.sum + v * n) / (m.count + n), m.sum + v * n, m.count + n⟩

/-- Running average over one outer iteration: `loss_meter.reset()`
(line 110) followed by one `update` per micro-batch (line 152). -/
def iterAvg (batches : List (ℚ × ℕ)) : ℚ :=
  (batches.foldl (fun m b => m.update b.1 b.2) AverageMeter.reset).avg

/-- Source line 189: the early-stop test evaluated after iteration `it`;
`env it` lists the (loss, batch size) pairs of iteration `it`. -/
def stopCond (env : ℕ → List (ℚ × ℕ)) (it : ℕ) : Prop :=
  burnin_iter < it ∧ iterAvg (env it) < 1 / 10

instance (env : ℕ → List (ℚ × ℕ)) (it : ℕ) : Decidable (stopCond env it) :=
  inferInstanceAs (Decidable (burnin_iter < it ∧ iterAvg (env it) < 1 / 10))

/-- Source lines 109-190 control flow: `for it in progress_bar` over
`range(num_steps)` with the early-stop `break` at lines 189-190; yields
the executed iteration indices. -/
def runLoopFrom (env : ℕ → List (ℚ × ℕ)) : ℕ → ℕ → List ℕ
  | _, 0 => []
  | it, fuel + 1 =>
    it :: (if stopCond env it then [] else runLoopFrom env (it + 1) fuel)

/-- The iteration indices executed by one run with `num_steps = numSteps`. -/
def runIters (numSteps : ℕ) (env : ℕ → List (ℚ × ℕ)) : List ℕ :=
  runLoopFrom env 0 numSteps

/-- Source line 136 for one example:
`[False] * length + [True] * (prompt_target_len - length)`. -/
def labelMask (promptLen seqLen : ℕ) : List Bool :=
  List.replicate promptLen false ++ List.replicate (seqLen - promptLen) true

/-- Source lines 132-134 for a batch of one example:
`prompt_len = num_pad_toks + num_prompt_toks`. -/
def promptLenOf (padId : ℕ) (promptToks fullToks : List ℕ) : ℕ :=
  fullToks.countP (fun t => decide (t = padId)) +
    promptToks.countP (fun t => decide (¬ t = padId))

/-- Division as written at source line 149, made fallible to witness the
divide-by-zero; no guard precedes it in the source. -/
def divE (a b : ℚ) : Except String ℚ :=
  if b = 0 then .error "division by zero" else .ok (a / b)

/-- Source line 149 for one example: the masked per-token losses summed
over the shifted mask `mask[1:]`, divided by that mask's popcount. -/
def rowLossE (tokenLosses : List ℚ) (mask : List Bool) : Except String ℚ :=
  divE (List.zipWith (fun l m => if m then l else 0) tokenLosses (mask.drop 1)).sum
    (((mask.drop 1).countP id : ℕ) : ℚ)

/-- Source lines 127-136 for a batch of one example: the label mask
built from the prompt tokenization and the prompt+target tokenization
(concatenation, no padding needed for a single example). -/
def exampleMask (padId : ℕ) (promptToks targetToks : List ℕ) : List Bool :=
  labelMask (promptLenOf padId promptToks (promptToks ++ targetToks))
    (promptToks ++ targetToks).length

end RoseLoRA

namespace RoseLoRA

theorem chunksGo_flatten (n : ℕ) :
    ∀ (arr chunk : List α), chunk.length < n →
      (chunksGo n arr chunk).flatten = chunk ++ arr := by
  intro arr
  induction arr with
  | nil =>
    intro chunk _
    simp only [chunksGo]
    by_cases h : chunk.length > 0
    · rw [if_pos h]
      simp
    · rw [if_neg h]
      simp at h
      simp [h]
  | cons a arr ih =>
    intro chunk hc
    simp only [chunksGo]
    by_cases h : (chunk ++ [a]).length = n
    · have hn1 : 1 ≤ n := by rw [← h]; simp
      rw [if_pos h, List.flatten_cons, ih [] (by simpa using hn1)]
      simp
    · rw [if_neg h, ih (chunk ++ [a])]
      · simp
      · have : (chunk ++ [a]).length = chunk.length + 1 := by simp
        omega

theorem chunksGo_sizes (n : ℕ) (hn : 1 ≤ n) :
    ∀ (arr chunk : List α), chunk.length < n →
      ∀ c ∈ chunksGo n arr chunk, c ≠ [] ∧ c.length ≤ n := by
  intro arr
  induction arr with
  | nil =>
    intro chunk hc c hmem
    simp only [chunksGo] at hmem
    by_cases h : chunk.length > 0
    · rw [if_pos h] at hmem
      simp only [List.mem_singleton] at hmem
      subst hmem
      exact ⟨by intro he; simp [he] at h, by omega⟩
    · rw [if_neg h] at hmem
      simp at hmem
  | cons a arr ih =>
    intro chunk hc c hmem
    simp only [chunksGo] at hmem
    by_cases h : (chunk ++ [a]).length = n
    · rw [if_pos h] at hmem
      rcases List.mem_cons.mp hmem with rfl | hmem'
      · exact ⟨by simp, le_of_eq h⟩
      · exact ih [] (by simpa using hn) c hmem'
    · rw [if_neg h] at hmem
      have hlt : (chunk ++ [a]).length < n := by
        have : (chunk ++ [a]).length = chunk.length + 1 := by simp
        omega
      exact ih (chunk ++ [a]) hlt c hmem

theorem chunksGo_dropLast_sizes (n : ℕ) :
    ∀ (arr chunk : List α), chunk.length < n →
      ∀ c ∈ (chunksGo n arr chunk).dropLast, c.length = n := by
  intro arr
  induction arr with
  | nil =>
    intro chunk _ c hmem
    simp only [chunksGo] at hmem
    by_cases h : chunk.length > 0
    · rw [if_pos h] at hmem
      simp at hmem
    · rw [if_neg h] at hmem
      simp at hmem
  | cons a arr ih =>
    intro chunk hc c hmem
    simp only [chunksGo] at hmem
    by_cases h : (chunk ++ [a]).length = n
    · rw [if_pos h] at hmem
      cases hrest : chunksGo n arr ([] : List α) with
      | nil =>
        rw [hrest] at hmem
        simp at hmem
      | cons r rs =>
        rw [hrest, List.dropLast_cons₂] at hmem
        rcases List.mem_cons.mp hmem with rfl | hmem'
        · exact h
        · have hn1 : 1 ≤ n := by rw [← h]; simp
          exact ih [] (by simpa using hn1) c (by rw [hrest]; exact hmem')
    · rw [if_neg h] at hmem
      have hlt : (chunk ++ [a]).length < n := by
        have : (chunk ++ [a]).length = chunk.length + 1 := by simp
        omega
      exact ih (chunk ++ [a]) hlt c hmem

/-- C8: for every list `arr` and chunk size `n ≥ 1`, `chunks(arr, n)`
yields order-preserving consecutive chunks whose concatenation is `arr`,
of size exactly `n` except possibly the last; the last chunk is never
empty and never exceeds size `n`; `chunks([1..7], 3)` is
`[[1,2,3],[4,5,6],[7]]` and `chunks([], 3)` yields nothing. -/
theorem claim_C8_chunks {α : Type} (arr : List α) (n : ℕ) (hn : 1 ≤ n) :
    (chunks arr n).flatten = arr ∧
    (∀ c ∈ chunks arr n, c ≠ [] ∧ c.length ≤ n) ∧
    (∀ c ∈ (chunks arr n).dropLast, c.length = n) ∧
    chunks [1, 2, 3, 4, 5, 6, 7] 3 = [[1, 2, 3], [4, 5, 6], [7]] ∧
    chunks ([] : List ℕ) 3 = [] := by
  refine ⟨?_, ?_, ?_, by decide, by decide⟩
  · simpa using chunksGo_flatten n arr [] (by simpa using hn)
  · intro c hc
    exact chunksGo_sizes n hn arr [] (by simpa using hn) c hc
  · intro c hc
    exact chunksGo_dropLast_sizes n arr [] (by simpa using hn) c hc

theorem claim_C8_witness :
    (chunks [1, 2, 3, 4, 5] 2).flatten = [1, 2, 3, 4, 5] ∧
    chunks [1, 2, 3, 4, 5, 6, 7] 3 = [[1, 2, 3], [4, 5, 6], [7]] :=
  ⟨(claim_C8_chunks [1, 2, 3, 4, 5] 2 (by decide)).1,
   (claim_C8_chunks [1, 2, 3, 4, 5] 2 (by decide)).2.2.2.1⟩

/-- C5 counterexample: the code prepends a space whenever the target is
not exactly `" "`, so the empty target (and, e.g., the two-space target)
also receives a leading space, while the claim's rule (prepend iff
non-empty and not whitespace-only) leaves both unchanged. -/
theorem claim_C5_counterexample :
    processTarget "" = " " ∧ claimedProcessTarget "" = "" ∧
      processTarget "  " = "   " ∧ claimedProcessTarget "  " = "  " := by
  refine ⟨by decide, by decide, by decide, by decide⟩

/-- C5 (amended): the preprocessing prepends exactly one leading space
iff the target differs from the single-space string `" "`; `" "` itself
is left unchanged; after preprocessing every stored target is non-empty
and starts with a space. -/
theorem claim_C5_leading_space (t : String) :
    (processTarget " " = " ") ∧
    (t ≠ " " → processTarget t = " " ++ t) ∧
    (processTarget t).data.head? = some ' ' := by
  refine ⟨by decide, fun h => by simp [processTarget, h], ?_⟩
  by_cases h : t = " "
  · subst h
    decide
  · simp only [processTarget, if_neg h, String.data_append]
    simp [show (" ").data = [' '] from rfl]

theorem claim_C5_witness :
    processTarget "Paris" = " Paris" ∧ (processTarget "Paris").data.head? = some ' ' :=
  ⟨(claim_C5_leading_space "Paris").2.1 (by decide),
   (claim_C5_leading_space "Paris").2.2⟩

/-- C4 counterexample: with an unsupported `lora_type` the run does fail
before tokenization, optimizer construction and training, but the model
has already been mutated at the point of failure: `use_cache` was set to
`False` (and the gradient-checkpointing flags were set) on source lines
53-56, before the check on line 57. -/
theorem claim_C4_counterexample :
    (executeTrace ⟨true, false, false, false, 7⟩ "adalora").2.2 = false ∧
    (executeTrace ⟨true, false, false, false, 7⟩ "adalora").1 ≠ ⟨true, false, false, false, 7⟩ ∧
    (executeTrace ⟨true, false, false, false, 7⟩ "adalora").1.use_cache = false := by
  refine ⟨by decide, by decide, by decide⟩

/-- C4 (amended): for every `lora_type ≠ "lora"`, `execute_roselora`
raises NotImplemented before adapter wrapping, request preprocessing,
optimizer construction, tokenization and training; at the point of
failure the only mutations of the model are the cache/gradient
checkpointing flag assignments of lines 53-56, and the model weights are
untouched. -/
theorem claim_C4_fail_fast (m : ModelState) (lt : String) (h : lt ≠ "lora") :
    (executeTrace m lt).2.2 = false ∧
    (executeTrace m lt).2.1 = [] ∧
    ExecEvent.tokenize ∉ (executeTrace m lt).2.1 ∧
    ExecEvent.optimizerInit ∉ (executeTrace m lt).2.1 ∧
    ExecEvent.trainStep ∉ (executeTrace m lt).2.1 ∧
    (executeTrace m lt).1 = setupFlags m ∧
    (executeTrace m lt).1.weights = m.weights := by
  simp [executeTrace, h, setupFlags]

theorem claim_C4_witness :
    (executeTrace ⟨true, false, false, false, 7⟩ "adalora").2.1 = [] ∧
    (executeTrace ⟨true, false, false, false, 7⟩ "adalora").1.weights = 7 :=
  ⟨(claim_C4_fail_fast ⟨true, false, false, false, 7⟩ "adalora" (by decide)).2.1,
   (claim_C4_fail_fast ⟨true, false, false, false, 7⟩ "adalora" (by decide)).2.2.2.2.2.2⟩

/-- C7: on an input whose target tokenizes to zero tokens, the shifted
label mask selects zero tokens and the per-example masked mean at source
line 149 divides by zero; nothing in lines 127-149 validates the mask
or fails explicitly before the division. -/
theorem claim_C7_div_by_zero :
    exampleMask 0 [5, 6, 7] [] = [false, false, false] ∧
    ((exampleMask 0 [5, 6, 7] []).drop 1).countP id = 0 ∧
    rowLossE [1, 1] (exampleMask 0 [5, 6, 7] []) = .error "division by zero" := by
  refine ⟨by decide, by decide, ?_⟩
  rfl

theorem getD_zipWith (f : ℚ → ℚ → ℚ) :
    ∀ (l1 l2 : List ℚ) (i : ℕ), i < l1.length → i < l2.length →
      (List.zipWith f l1 l2).getD i 0 = f (l1.getD i 0) (l2.getD i 0) := by
  intro l1
  induction l1 with
  | nil =>
    intro l2 i h1 _
    simp at h1
  | cons a l ih =>
    intro l2 i h1 h2
    cases l2 with
    | nil => simp at h2
    | cons b l2 =>
      cases i with
      | zero => simp
      | succ j =>
        simp only [List.zipWith_cons_cons, List.getD_cons_succ]
        exact ih l2 j (by simpa using h1) (by simpa using h2)

/-- C3: for every adapter parameter whose name marks it as role A or
role B, the elementwise score `|grad * value|` is computed after the
backward pass; on first observation the ImportanceScore is initialized
to that score, afterwards it becomes `0.8 * old + 0.2 * new` with the
new term passed through `detach` (identity on values). -/
theorem claim_C3_importance_ema
    (impA impB : ImpMap) (p : NamedParam) (old s g v : List ℚ) (i : ℕ) :
    (strHasSub p.name "lora_A" = true → impA p.name = none →
      (updateImps [p] impA impB).1 p.name = some (impScore p.grad p.val)) ∧
    (strHasSub p.name "lora_A" = true → impA p.name = some old →
      (updateImps [p] impA impB).1 p.name = some (emaStep old (impScore p.grad p.val))) ∧
    (strHasSub p.name "lora_B" = true → impB p.name = none →
      (updateImps [p] impA impB).2 p.name = some (impScore p.grad p.val)) ∧
    (strHasSub p.name "lora_B" = true → impB p.name = some old →
      (updateImps [p] impA impB).2 p.name = some (emaStep old (impScore p.grad p.val))) ∧
    (i < g.length → i < v.length →
      (impScore g v).getD i 0 = |g.getD i 0 * v.getD i 0|) ∧
    (i < old.length → i < s.length →
      (emaStep old s).getD i 0 = (8 / 10) * old.getD i 0 + (2 / 10) * s.getD i 0) := by
  refine ⟨?_, ?_, ?_, ?_, ?_, ?_⟩
  · intro hA hnone
    simp [updateImps, impUpdate, hA, hnone]
  · intro hA hsome
    simp [updateImps, impUpdate, hA, hsome]
  · intro hB hnone
    simp [updateImps, impUpdate, hB, hnone]
  · intro hB hsome
    simp [updateImps, impUpdate, hB, hsome]
  · intro h1 h2
    rw [impScore, getD_zipWith _ g v i h1 h2]
  · intro h1 h2
    rw [emaStep, detach, getD_zipWith _ old s i h1 h2]
    ring

theorem claim_C3_witness :
    (updateImps [⟨"base.lora_A.weight", [2, -3], [4, 5]⟩]
        (fun _ => none) (fun _ => none)).1 "base.lora_A.weight" =
      some (impScore [2, -3] [4, 5]) ∧
    impScore [2, -3] [4, 5] = [8, 15] :=
  ⟨(claim_C3_importance_ema (fun _ => none) (fun _ => none)
      ⟨"base.lora_A.weight", [2, -3], [4, 5]⟩ [] [] [] [] 0).1 (by decide) rfl,
   by norm_num [impScore]⟩

theorem rateOf_eq_anneal (it : ℕ) (h3 : 3 ≤ it) (h20 : it < 20) :
    rateOf it = 1 / 20 + (19 / 20) * ((20 - (it : ℚ)) / 17) ^ 3 := by
  unfold rateOf sparsity full_iter burnin_iter
  rw [if_neg (by omega), if_pos (by omega)]
  push_cast
  ring_nf

/-- C2: the sparsity rate is a pure function of the iteration index:
1.0 exactly for iterations 0-2, the cubic annealing formula for
3 ≤ it < 20, 0.05 exactly from iteration 20 on; over the annealing
range it is strictly decreasing, and it always lies in [0.05, 1]. -/
theorem claim_C2_rate_schedule (it it2 : ℕ) :
    ((it = 0 ∨ it = 1 ∨ it = 2) → rateOf it = 1) ∧
    (3 ≤ it → it < 20 →
      rateOf it = 1 / 20 + (19 / 20) * (1 - ((it : ℚ) - 3) / 17) ^ 3) ∧
    (20 ≤ it → rateOf it = 1 / 20) ∧
    (3 ≤ it → it < it2 → it2 < 20 → rateOf it2 < rateOf it) ∧
    (1 / 20 ≤ rateOf it ∧ rateOf it ≤ 1) := by
  refine ⟨?_, ?_, ?_, ?_, ?_⟩
  · rintro (rfl | rfl | rfl) <;> norm_num [rateOf, full_iter]
  · intro h3 h20
    rw [rateOf_eq_anneal it h3 h20]
    ring_nf
  · intro h
    unfold rateOf sparsity full_iter burnin_iter
    rw [if_neg (by omega), if_neg (by omega)]
    norm_num
  · intro h3 hlt h20
    rw [rateOf_eq_anneal it h3 (by omega), rateOf_eq_anneal it2 (by omega) h20]
    have hc : (it : ℚ) < (it2 : ℚ) := by exact_mod_cast hlt
    have h19 : (it2 : ℚ) ≤ 19 := by exact_mod_cast (by omega : it2 ≤ 19)
    have ha : (0 : ℚ) ≤ (20 - (it2 : ℚ)) / 17 := by
      apply div_nonneg _ (by norm_num)
      linarith
    have hab : (20 - (it2 : ℚ)) / 17 < (20 - (it : ℚ)) / 17 := by
      apply div_lt_div_of_pos_right _ (by norm_num)
      linarith
    have hpow := pow_lt_pow_left₀ hab ha (by norm_num : 3 ≠ 0)
    linarith
  · by_cases h3 : it < 3
    · have : rateOf it = 1 := by
        unfold rateOf full_iter
        rw [if_pos (by omega)]
      rw [this]
      norm_num
    · by_cases h20 : it < 20
      · rw [rateOf_eq_anneal it (by omega) h20]
        have hle : (it : ℚ) ≤ 19 := by exact_mod_cast (by omega : it ≤ 19)
        have hge : (3 : ℚ) ≤ (it : ℚ) := by exact_mod_cast (by omega : 3 ≤ it)
        have ha0 : (0 : ℚ) ≤ (20 - (it : ℚ)) / 17 := by
          apply div_nonneg _ (by norm_num)
          linarith
        have ha1 : (20 - (it : ℚ)) / 17 ≤ 1 := by
          rw [div_le_one (by norm_num)]
          linarith
        have hc0 : (0 : ℚ) ≤ ((20 - (it : ℚ)) / 17) ^ 3 := pow_nonneg ha0 3
        have hc1 : ((20 - (it : ℚ)) / 17) ^ 3 ≤ 1 := pow_le_one₀ ha0 ha1
        constructor <;> nlinarith
      · have : rateOf it = 1 / 20 := by
          unfold rateOf sparsity full_iter burnin_iter
          rw [if_neg (by omega), if_neg (by omega)]
          norm_num
        rw [this]
        norm_num

theorem claim_C2_witness :
    rateOf 1 = 1 ∧
    rateOf 10 = 1 / 20 + (19 / 20) * (1 - (((10 : ℕ) : ℚ) - 3) / 17) ^ 3 ∧
    rateOf 25 = 1 / 20 ∧
    rateOf 7 < rateOf 5 ∧
    (1 / 20 ≤ rateOf 10 ∧ rateOf 10 ≤ 1) :=
  ⟨(claim_C2_rate_schedule 1 0).1 (by decide),
   (claim_C2_rate_schedule 10 0).2.1 (by norm_num) (by norm_num),
   (claim_C2_rate_schedule 25 0).2.2.1 (by norm_num),
   (claim_C2_rate_schedule 5 7).2.2.2.1 (by norm_num) (by norm_num) (by norm_num),
   (claim_C2_rate_schedule 10 0).2.2.2.2⟩

theorem mem_runLoopFrom (env : ℕ → List (ℚ × ℕ)) :
    ∀ (fuel start it : ℕ),
      it ∈ runLoopFrom env start fuel ↔
        (start ≤ it ∧ it < start + fuel ∧
          ∀ j, start ≤ j → j < it → ¬ stopCond env j) := by
  intro fuel
  induction fuel with
  | zero =>
    intro start it
    simp only [runLoopFrom, List.not_mem_nil, false_iff]
    rintro ⟨h1, h2, _⟩
    omega
  | succ fuel ih =>
    intro start it
    by_cases hs : stopCond env start
    · simp only [runLoopFrom, if_pos hs, List.mem_cons, List.not_mem_nil, or_false]
      constructor
      · rintro rfl
        exact ⟨le_refl _, by omega, fun j h1 h2 => absurd h2 (by omega)⟩
      · rintro ⟨h1, _, h3⟩
        by_contra hne
        exact h3 start (le_refl _) (by omega) hs
    · simp only [runLoopFrom, if_neg hs, List.mem_cons]
      rw [ih (start + 1) it]
      constructor
      · rintro (rfl | ⟨h1, h2, h3⟩)
        · exact ⟨le_refl _, by omega, fun j hj1 hj2 => absurd hj2 (by omega)⟩
        · refine ⟨by omega, by omega, fun j hj1 hj2 => ?_⟩
          rcases eq_or_lt_of_le hj1 with rfl | hlt
          · exact hs
          · exact h3 j (by omega) hj2
      · rintro ⟨h1, h2, h3⟩
        rcases eq_or_lt_of_le h1 with rfl | hlt
        · exact Or.inl rfl
        · exact Or.inr ⟨by omega, by omega, fun j hj1 hj2 => h3 j (by omega) hj2⟩

theorem runLoopFrom_no_stop (env : ℕ → List (ℚ × ℕ)) :
    ∀ (fuel start : ℕ),
      (∀ j, start ≤ j → j < start + fuel → ¬ stopCond env j) →
      runLoopFrom env start fuel = List.range' start fuel := by
  intro fuel
  induction fuel with
  | zero =>
    intro start _
    rfl
  | succ fuel ih =>
    intro start h
    simp only [runLoopFrom, if_neg (h start (le_refl _) (by omega)), List.range']
    rw [ih (start + 1) (fun j h1 h2 => h j (by omega) (by omega))]

/-- C6: the loop halts early exactly when, after a completed iteration
`it` with `it + 1 < num_steps`, both `it > burnin_iter` (20) and that
iteration's running average loss is below 0.1; it never halts early at
`it ≤ 20`; when no iteration satisfies the stop test, exactly the
iterations `0, ..., num_steps - 1` run; and no iteration index reaches
`num_steps`. -/
theorem claim_C6_early_stop (numSteps : ℕ) (env : ℕ → List (ℚ × ℕ)) :
    (∀ it, it + 1 < numSteps → it ∈ runIters numSteps env →
      (it + 1 ∉ runIters numSteps env ↔
        (burnin_iter < it ∧ iterAvg (env it) < 1 / 10))) ∧
    (∀ it, it ≤ burnin_iter → it + 1 < numSteps → it ∈ runIters numSteps env →
      it + 1 ∈ runIters numSteps env) ∧
    ((∀ it, it < numSteps → ¬ (burnin_iter < it ∧ iterAvg (env it) < 1 / 10)) →
      runIters numSteps env = List.range numSteps) ∧
    (∀ it, it ∈ runIters numSteps env → it < numSteps) := by
  have hchar := mem_runLoopFrom env numSteps 0
  refine ⟨?_, ?_, ?_, ?_⟩
  · intro it hlt hmem
    rw [runIters, hchar it] at hmem
    constructor
    · intro hnot
      by_contra hstop
      apply hnot
      rw [runIters, hchar (it + 1)]
      refine ⟨by omega, by omega, fun j hj1 hj2 => ?_⟩
      rcases Nat.lt_or_ge j it with hj | hj
      · exact hmem.2.2 j hj1 hj
      · have : j = it := by omega
        subst this
        exact fun hc => hstop hc
    · intro hstop hmem1
      rw [runIters, hchar (it + 1)] at hmem1
      exact hmem1.2.2 it (by omega) (by omega) hstop
  · intro it hle hlt hmem
    rw [runIters, hchar it] at hmem
    rw [runIters, hchar (it + 1)]
    refine ⟨by omega, by omega, fun j hj1 hj2 => ?_⟩
    rcases Nat.lt_or_ge j it with hj | hj
    · exact hmem.2.2 j hj1 hj
    · have : j = it := by omega
      subst this
      rintro ⟨hgt, _⟩
      unfold burnin_iter at hle hgt
      omega
  · intro h
    rw [runIters, runLoopFrom_no_stop env numSteps 0
      (fun j _ h2 => h j (by omega)), List.range_eq_range']
  · intro it hmem
    rw [runIters, hchar it] at hmem
    omega

theorem claim_C6_witness :
    runIters 23 (fun _ => [(1, 1)]) = List.range 23 :=
  (claim_C6_early_stop 23 (fun _ => [(1, 1)])).2.2.1 (by
    intro it _
    rintro ⟨_, havg⟩
    norm_num [iterAvg, AverageMeter.update, AverageMeter.reset] at havg)

theorem preprocessHeap_getD (a : ℕ) :
    ∀ (addrs : List ℕ) (hh : List Request),
      (∀ b ∈ addrs, b ≠ a) →
      (preprocessHeap hh addrs).getD a default = hh.getD a default := by
  intro addrs
  induction addrs with
  | nil =>
    intro hh _
    rfl
  | cons b bs ih =>
    intro hh hne
    have hstep : preprocessHeap hh (b :: bs) =
        preprocessHeap (hh.set b (procRequest (hh.getD b default))) bs := rfl
    rw [hstep, ih _ (fun c hc => hne c (List.mem_cons_of_mem b hc)),
      List.getD_eq_getElem?_getD,
      List.getElem?_set_ne (hne b (List.mem_cons_self b bs)),
      ← List.getD_eq_getElem?_getD]

/-- C9: the run operates on a deep copy of the caller's requests: every
request dictionary the caller can address is unchanged by the request
preprocessing, so the leading-space mutation is invisible to the
caller. -/
theorem claim_C9_no_caller_mutation (h : List Request) (callerAddrs : List ℕ)
    (a : ℕ) (ha : a < h.length) :
    (execRequests h callerAddrs).1.getD a default = h.getD a default := by
  show (preprocessHeap (h ++ callerAddrs.map fun b => h.getD b default)
      (List.range' h.length callerAddrs.length)).getD a default = h.getD a default
  have hne : ∀ b ∈ List.range' h.length callerAddrs.length, b ≠ a := by
    intro b hb
    have := List.mem_range'_1.mp hb
    omega
  rw [preprocessHeap_getD a _ _ hne, List.getD_eq_getElem?_getD,
    List.getD_eq_getElem?_getD, List.getElem?_append, if_pos ha]

theorem claim_C9_witness :
    (execRequests [⟨"p", "x"⟩] [0]).1.getD 0 default = ⟨"p", "x"⟩ :=
  claim_C9_no_caller_mutation [⟨"p", "x"⟩] [0] 0 (by decide)

theorem sorted_kth_counts :
    ∀ (l : List ℚ), l.Sorted (· ≤ ·) → ∀ k, 1 ≤ k → k ≤ l.length →
      (l.countP (fun y => decide (y < l.getD (k - 1) 0)) ≤ k - 1 ∧
       k ≤ l.countP (fun y => decide (y ≤ l.getD (k - 1) 0)) ∧
       l.getD (k - 1) 0 ∈ l ∧
       (l.Nodup → l.countP (fun y => decide (y < l.getD (k - 1) 0)) = k - 1)) := by
  intro l
  induction l with
  | nil =>
    intro _ k h1 h2
    simp at h2
    omega
  | cons a tl ih =>
    intro hs k h1 h2
    obtain ⟨k', rfl⟩ : ∃ k', k = k' + 1 := ⟨k - 1, by omega⟩
    cases k' with
    | zero =>
      simp only [Nat.add_sub_cancel, List.getD_cons_zero]
      have hmin : ∀ x ∈ a :: tl, a ≤ x := by
        intro x hx
        rcases List.mem_cons.mp hx with rfl | hx
        · exact le_refl x
        · exact List.rel_of_sorted_cons hs x hx
      have hzero : (a :: tl).countP (fun y => decide (y < a)) = 0 :=
        List.countP_eq_zero.mpr (fun x hx => by simpa using not_lt.mpr (hmin x hx))
      refine ⟨by omega, ?_, List.mem_cons_self a tl, fun _ => by omega⟩
      rw [List.countP_cons]
      simp
    | succ j =>
      have hlen : j + 1 ≤ tl.length := by
        simp only [List.length_cons] at h2
        omega
      have htail := ih hs.of_cons (j + 1) (by omega) hlen
      simp only [Nat.add_sub_cancel] at htail ⊢
      simp only [List.getD_cons_succ]
      have htmem : tl.getD j 0 ∈ tl := htail.2.2.1
      have hat : a ≤ tl.getD j 0 := List.rel_of_sorted_cons hs _ htmem
      refine ⟨?_, ?_, List.mem_cons_of_mem a htmem, ?_⟩
      · rw [List.countP_cons]
        have hc1 := htail.1
        by_cases hlt : a < tl.getD j 0
        · rw [if_pos (show decide (a < tl.getD j 0) = true by simpa using hlt)]
          omega
        · rw [if_neg (show ¬ decide (a < tl.getD j 0) = true by simpa using hlt)]
          omega
      · rw [List.countP_cons,
          if_pos (show decide (a ≤ tl.getD j 0) = true by simpa using hat)]
        have hc2 := htail.2.1
        omega
      · intro hnd
        rcases List.nodup_cons.mp hnd with ⟨hna, hndtl⟩
        have hane : a ≠ tl.getD j 0 := fun he => hna (he ▸ htmem)
        have halt : a < tl.getD j 0 := lt_of_le_of_ne hat hane
        rw [List.countP_cons,
          if_pos (show decide (a < tl.getD j 0) = true by simpa using halt)]
        have hc3 := htail.2.2.2 hndtl
        omega

theorem kth_counts (sc : List ℚ) (k : ℕ) (h1 : 1 ≤ k) (h2 : k ≤ sc.length) :
    kthThreshold sc k ∈ sc ∧
    sc.countP (fun y => decide (y < kthThreshold sc k)) ≤ k - 1 ∧
    k ≤ sc.countP (fun y => decide (y ≤ kthThreshold sc k)) ∧
    (sc.Nodup → sc.countP (fun y => decide (y < kthThreshold sc k)) = k - 1) := by
  have hperm : List.Perm (sortedScores sc) sc := List.perm_insertionSort _ sc
  have hsort : (sortedScores sc).Sorted (· ≤ ·) := List.sorted_insertionSort _ sc
  have hlen : (sortedScores sc).length = sc.length := hperm.length_eq
  have hmain := sorted_kth_counts (sortedScores sc) hsort k h1 (by omega)
  have hth : kthThreshold sc k = (sortedScores sc).getD (k - 1) 0 := rfl
  refine ⟨?_, ?_, ?_, ?_⟩
  · rw [hth]
    exact hperm.mem_iff.mp hmain.2.2.1
  · rw [hth, ← hperm.countP_eq]
    exact hmain.1
  · rw [hth, ← hperm.countP_eq]
    exact hmain.2.1
  · intro hnd
    rw [hth, ← hperm.countP_eq]
    exact hmain.2.2.2 (hperm.nodup_iff.mpr hnd)

theorem clamp3_zero : clamp3 0 = 0 := by
  norm_num [clamp3]

theorem abs_clamp3_le (v : ℚ) : |clamp3 v| ≤ 3 / 1000 := by
  rw [abs_le]
  constructor
  · exact le_min (le_max_right v _) (by norm_num)
  · exact min_le_right _ _

theorem zeros_count_ge (t : ℚ) :
    ∀ (sc vl : List ℚ), sc.length ≤ vl.length →
      sc.countP (fun s => decide (s < t)) ≤
        (prunedSlice t sc vl).countP (fun y => decide (y = 0)) := by
  intro sc
  induction sc with
  | nil =>
    intro vl _
    simp [prunedSlice]
  | cons s sc ih =>
    intro vl hlen
    cases vl with
    | nil => simp at hlen
    | cons v vl =>
      have hih := ih vl (by simpa using hlen)
      simp only [prunedSlice] at hih
      simp only [prunedSlice, List.zipWith_cons_cons, List.map_cons,
        List.countP_cons]
      by_cases hst : s < t
      · rw [show (if s < t then (0 : ℚ) else v) = 0 from if_pos hst, clamp3_zero,
          if_pos (show decide (s < t) = true by simpa using hst),
          if_pos (show decide ((0 : ℚ) = 0) = true by simp)]
        omega
      · rw [show (if s < t then (0 : ℚ) else v) = v from if_neg hst,
          if_neg (show ¬ decide (s < t) = true by simpa using hst)]
        split <;> omega

theorem getD_map_of_lt (f : ℚ → ℚ) (l : List ℚ) (i : ℕ) (h : i < l.length) :
    (l.map f).getD i 0 = f (l.getD i 0) := by
  rw [List.getD_eq_getElem?_getD, List.getD_eq_getElem?_getD, List.getElem?_map,
    List.getElem?_eq_getElem h]
  simp

/-- C1 (amended): for every pruning step with `rate < 1` whose computed
`k = int(shape * (1 - rate))` is at least 1, on every slice along the
pruning dimension the threshold is the kth smallest ImportanceScore
entry; every entry whose score is strictly below the threshold is set to
exactly zero and everything is clamped to `[-3e-3, 3e-3]`; consequently
the count of exactly-zero entries of the slice is at least the number of
score entries strictly below the threshold — which is at most `k - 1`,
and exactly `k - 1` when the slice's scores are distinct (not `k` as the
original claim says) — and no entry exceeds `3e-3` in absolute value. -/
theorem claim_C1_pruning (shape : ℕ) (rate : ℚ) (sc vl : List ℚ)
    (hshape : sc.length = shape) (hlen : vl.length = sc.length)
    (hr0 : 0 ≤ rate) (hk1 : 1 ≤ pruneK shape rate) :
    pruneK shape rate = (⌊(shape : ℚ) * (1 - rate)⌋).toNat ∧
    kthvalueE sc (pruneK shape rate) = .ok (kthThreshold sc (pruneK shape rate)) ∧
    pruneSliceE (pruneK shape rate) sc vl =
      .ok (prunedSlice (kthThreshold sc (pruneK shape rate)) sc vl) ∧
    kthThreshold sc (pruneK shape rate) ∈ sc ∧
    sc.countP (fun y => decide (y < kthThreshold sc (pruneK shape rate))) ≤
      pruneK shape rate - 1 ∧
    pruneK shape rate ≤
      sc.countP (fun y => decide (y ≤ kthThreshold sc (pruneK shape rate))) ∧
    (∀ i, i < sc.length →
      (prunedSlice (kthThreshold sc (pruneK shape rate)) sc vl).getD i 0 =
        clamp3 (if sc.getD i 0 < kthThreshold sc (pruneK shape rate) then 0
                else vl.getD i 0)) ∧
    sc.countP (fun y => decide (y < kthThreshold sc (pruneK shape rate))) ≤
      (prunedSlice (kthThreshold sc (pruneK shape rate)) sc vl).countP
        (fun y => decide (y = 0)) ∧
    (sc.Nodup →
      sc.countP (fun y => decide (y < kthThreshold sc (pruneK shape rate))) =
        pruneK shape rate - 1) ∧
    (∀ x ∈ prunedSlice (kthThreshold sc (pruneK shape rate)) sc vl,
      |x| ≤ 3 / 1000) := by
  have hfloor : ⌊(shape : ℚ) * (1 - rate)⌋ ≤ (shape : ℤ) := by
    have hle : (shape : ℚ) * (1 - rate) ≤ ((shape : ℕ) : ℚ) := by
      nlinarith [mul_nonneg (Nat.cast_nonneg (α := ℚ) shape) hr0]
    calc ⌊(shape : ℚ) * (1 - rate)⌋ ≤ ⌊((shape : ℕ) : ℚ)⌋ := Int.floor_le_floor hle
      _ = (shape : ℤ) := Int.floor_natCast _
  have hkle : pruneK shape rate ≤ sc.length := by
    rw [hshape]
    exact Int.toNat_le.mpr hfloor
  have hok : kthvalueE sc (pruneK shape rate) =
      .ok (kthThreshold sc (pruneK shape rate)) := by
    unfold kthvalueE kthThreshold
    rw [if_pos ⟨hk1, hkle⟩]
  have hcounts := kth_counts sc (pruneK shape rate) hk1 hkle
  refine ⟨rfl, hok, ?_, hcounts.1, hcounts.2.1, hcounts.2.2.1, ?_,
    zeros_count_ge _ sc vl (le_of_eq hlen.symm), hcounts.2.2.2, ?_⟩
  · unfold pruneSliceE
    rw [hok]
  · intro i hi
    unfold prunedSlice
    rw [getD_map_of_lt _ _ i (by simp only [List.length_zipWith]; omega),
      getD_zipWith _ sc vl i hi (by omega)]
  · intro x hx
    unfold prunedSlice at hx
    rcases List.mem_map.mp hx with ⟨y, _, rfl⟩
    exact abs_clamp3_le y

theorem claim_C1_witness :
    kthvalueE [1, 2, 3, 4] (pruneK 4 (1 / 20)) =
      .ok (kthThreshold [1, 2, 3, 4] (pruneK 4 (1 / 20))) ∧
    (List.Nodup [(1 : ℚ), 2, 3, 4] →
      List.countP (fun y => decide (y < kthThreshold [1, 2, 3, 4] (pruneK 4 (1 / 20))))
          [(1 : ℚ), 2, 3, 4] = pruneK 4 (1 / 20) - 1) ∧
    (∀ x ∈ prunedSlice (kthThreshold [1, 2, 3, 4] (pruneK 4 (1 / 20))) [1, 2, 3, 4]
        [1, 1, 1, 1], |x| ≤ 3 / 1000) :=
  ⟨(claim_C1_pruning 4 (1 / 20) [1, 2, 3, 4] [1, 1, 1, 1] rfl rfl (by norm_num)
      (by norm_num [pruneK])).2.1,
   (claim_C1_pruning 4 (1 / 20) [1, 2, 3, 4] [1, 1, 1, 1] rfl rfl (by norm_num)
      (by norm_num [pruneK])).2.2.2.2.2.2.2.2.1,
   (claim_C1_pruning 4 (1 / 20) [1, 2, 3, 4] [1, 1, 1, 1] rfl rfl (by norm_num)
      (by norm_num [pruneK])).2.2.2.2.2.2.2.2.2⟩

/-- C1 counterexample: with `rate = 0.05` on a slice of 4 distinct
scores, `k = int(4 * 0.95) = 3` but only the 2 entries strictly below
the 3rd-smallest score are zeroed: the count of exactly-zero entries is
2, not `>= 3` as the original claim states. -/
theorem claim_C1_counterexample :
    pruneK 4 (1 / 20) = 3 ∧
    pruneSliceE 3 [1, 2, 3, 4] [1, 1, 1, 1] = .ok [0, 0, 3 / 1000, 3 / 1000] ∧
    List.countP (fun y => decide (y = (0 : ℚ))) [0, 0, 3 / 1000, 3 / 1000] = 2 ∧
    (2 : ℕ) < 3 := by
  refine ⟨?_, ?_,
    by norm_num [List.countP_cons, List.countP_nil], by decide⟩
  · norm_num [pruneK]
    rfl
  norm_num [pruneSliceE, kthvalueE, kthThreshold, sortedScores, prunedSlice,
    List.insertionSort, List.orderedInsert, clamp3, min_def, max_def]

/-- C10: whenever `0 < 1 - rate` is small enough that
`int(shape * (1 - rate)) = 0` (i.e. `shape * (1 - rate) < 1`), the
kth-value selection is invalid and the pruning step aborts with a
runtime error instead of pruning zero entries. -/
theorem claim_C10_kthvalue_abort (shape : ℕ) (rate : ℚ) (sc vl : List ℚ)
    (h0 : 0 < 1 - rate) (h1 : (shape : ℚ) * (1 - rate) < 1) :
    pruneK shape rate = 0 ∧
    pruneSliceE (pruneK shape rate) sc vl =
      .error "kthvalue: selected number k out of range" := by
  have hk : pruneK shape rate = 0 := by
    unfold pruneK
    rw [Int.floor_eq_zero_iff.mpr
      ⟨mul_nonneg (Nat.cast_nonneg _) (le_of_lt h0), h1⟩]
    rfl
  refine ⟨hk, ?_⟩
  rw [hk]
  unfold pruneSliceE kthvalueE
  rw [if_neg (by omega)]

theorem claim_C10_witness :
    pruneK 6 (rateOf 4) = 0 ∧
    pruneSliceE (pruneK 6 (rateOf 4)) [1, 2] [3, 4] =
      .error "kthvalue: selected number k out of range" :=
  claim_C10_kthvalue_abort 6 (rateOf 4) [1, 2] [3, 4]
    (by norm_num [rateOf, sparsity, full_iter, burnin_iter])
    (by norm_num [rateOf, sparsity, full_iter, burnin_iter])

end RoseLoRA
